import Mathlib

/-!
Verification of the rune-fs cache core: a shallow embedding of the sector
store, the codec pipeline and the reference-table metadata parser, with
theorems checking the natural-language specification against the code.

Bytes are modelled as natural numbers (each byte < 256); byte strings as
`List Nat`.  The nom-style parsers of the source become functions
`List Nat → Option (List Nat × α)` returning the remaining input first.
External compression libraries (bzip2, flate2, lzma_rs) are not part of the
repository; they enter as an explicit record of abstract functions.
-/

namespace RuneFs

/-! ## Byte-level parsers (nom combinators as used by the source) -/

def be_u8 : List Nat → Option (List Nat × Nat)
  | [] => none
  | b :: rest => some (rest, b % 256)

def be_u16 : List Nat → Option (List Nat × Nat)
  | b0 :: b1 :: rest => some (rest, (b0 % 256) * 256 + b1 % 256)
  | _ => none

def be_u24 : List Nat → Option (List Nat × Nat)
  | b0 :: b1 :: b2 :: rest =>
      some (rest, ((b0 % 256) * 256 + b1 % 256) * 256 + b2 % 256)
  | _ => none

def be_u32 : List Nat → Option (List Nat × Nat)
  | b0 :: b1 :: b2 :: b3 :: rest =>
      some (rest, (((b0 % 256) * 256 + b1 % 256) * 256 + b2 % 256) * 256 + b3 % 256)
  | _ => none

/-- `be_i16`: two big-endian bytes read as a signed 16-bit integer. -/
def be_i16 (l : List Nat) : Option (List Nat × Int) :=
  (be_u16 l).map (fun p => (p.1, if p.2 < 32768 then (p.2 : Int) else (p.2 : Int) - 65536))

/-- `nom::bytes::complete::take`: split off exactly `n` bytes or fail. -/
def take_ (n : Nat) (l : List Nat) : Option (List Nat × List Nat) :=
  if n ≤ l.length then some (l.drop n, l.take n) else none

/-- `be_i32`: four big-endian bytes read as a signed 32-bit integer. -/
def be_i32 (l : List Nat) : Option (List Nat × Int) :=
  (be_u32 l).map (fun p =>
    (p.1, if p.2 < 2 ^ 31 then (p.2 : Int) else (p.2 : Int) - 2 ^ 32))

/-! ## Byte-level writers (the `to_be_bytes` calls of the source) -/

/-- `u32::to_be_bytes` after an `as u32` cast (truncating). -/
def u32be (n : Nat) : List Nat :=
  [n / 2 ^ 24 % 256, n / 2 ^ 16 % 256, n / 2 ^ 8 % 256, n % 256]

/-- `i16::to_be_bytes`: the two's-complement big-endian bytes of an `i16`. -/
def i16be (v : Int) : List Nat :=
  [((v % 65536).toNat) / 256, ((v % 65536).toNat) % 256]

/-! ## Sector (src/sector.rs) -/

def SECTOR_HEADER_SIZE : Nat := 8

def SECTOR_EXPANDED_HEADER_SIZE : Nat := 10

def SECTOR_DATA_SIZE : Nat := 512

def SECTOR_EXPANDED_DATA_SIZE : Nat := 510

def SECTOR_SIZE : Nat := SECTOR_HEADER_SIZE + SECTOR_DATA_SIZE

/-- `SectorHeaderSize`: `Normal` (8-byte header) or `Expanded` (10-byte header). -/
inductive SectorHeaderSize where
  | normal
  | expanded
deriving DecidableEq, Repr

/-- Modelled from the spec: `ArchiveRef` lives in the repository's archive.rs,
which is not among the given files.  Per the spec it carries the archive id,
the owning index id, the first sector and the total length in bytes. -/
structure ArchiveRef where
  id : Nat
  index_id : Nat
  sector : Nat
  length : Nat
deriving DecidableEq, Repr

/-- `SectorHeaderSize::from(&ArchiveRef)`: expanded exactly when the archive id
exceeds `u16::MAX`. -/
def SectorHeaderSize.fromRef (r : ArchiveRef) : SectorHeaderSize :=
  if r.id > 65535 then .expanded else .normal

/-- `SectorHeader` with fields in on-disk order. -/
structure SectorHeader where
  archive_id : Nat
  chunk : Nat
  next : Nat
  index_id : Nat
deriving DecidableEq, Repr

/-- The three `ReadError` variants the sector walk can produce, plus the
archive-not-found error of the indices loader (error.rs is not among the given
files; the variants and their payloads are taken from their uses in
src/sector.rs and src/index.rs). -/
inductive ReadError where
  | sectorArchiveMismatch : Nat → Nat → ReadError
  | sectorChunkMismatch : Nat → Nat → ReadError
  | sectorIndexMismatch : Nat → Nat → ReadError
  | archiveNotFound : Nat → Nat → ReadError
deriving DecidableEq, Repr

/-- `SectorHeader::new`: parse the header fields off the front of a buffer. -/
def SectorHeader.new (buffer : List Nat) (hs : SectorHeaderSize) :
    Option (List Nat × SectorHeader) := do
  let (buffer, archive_id) ←
    match hs with
    | .normal => be_u16 buffer
    | .expanded => be_u32 buffer
  let (buffer, chunk) ← be_u16 buffer
  let (buffer, next) ← be_u24 buffer
  let (buffer, index_id) ← be_u8 buffer
  pure (buffer, ⟨archive_id, chunk, next, index_id⟩)

structure Sector where
  header : SectorHeader
  data_block : List Nat
deriving DecidableEq, Repr

/-- `Sector::new`: parse the header, the rest of the slice is the data block. -/
def Sector.new (buffer : List Nat) (hs : SectorHeaderSize) : Option Sector := do
  let (buffer, header) ← SectorHeader.new buffer hs
  pure ⟨header, buffer⟩

/-- `SectorHeader::validate`: compare the three header fields against the
expected values, reporting the first mismatch in field order. -/
def SectorHeader.validate (h : SectorHeader) (archive_id chunk index_id : Nat) :
    Except ReadError Unit :=
  if h.archive_id ≠ archive_id then
    .error (.sectorArchiveMismatch h.archive_id archive_id)
  else if h.chunk ≠ chunk then
    .error (.sectorChunkMismatch h.chunk chunk)
  else if h.index_id ≠ index_id then
    .error (.sectorIndexMismatch h.index_id index_id)
  else
    .ok ()

/-! ## Compression tag (src/codec.rs), with the `rs3` feature enabled so that
`Lzma` exists, as the spec's four-case enum requires. -/

inductive Compression where
  | none
  | bzip2
  | gzip
  | lzma
deriving DecidableEq, Repr

/-- `u8::from(Compression)` / `self.compression as u8`. -/
def Compression.tag : Compression → Nat
  | .none => 0
  | .bzip2 => 1
  | .gzip => 2
  | .lzma => 3

/-- `Compression::try_from(u8)`. -/
def Compression.tryFrom (b : Nat) : Option Compression :=
  match b with
  | 0 => some .none
  | 1 => some .bzip2
  | 2 => some .gzip
  | 3 => some .lzma
  | _ => Option.none

/-! ## XTEA (xtea.rs is not among the given files).

Modelled from the spec: standard 32-round XTEA over 8-byte blocks with a
128-bit key of four 32-bit words, in place, big-endian block layout, trailing
bytes shorter than 8 left untouched.  All word arithmetic is modulo 2^32. -/

def xteaDelta : Nat := 0x9E3779B9

def M32 : Nat := 2 ^ 32

abbrev XteaKey := Nat × Nat × Nat × Nat

def XteaKey.word (k : XteaKey) (i : Nat) : Nat :=
  match i % 4 with
  | 0 => k.1
  | 1 => k.2.1
  | 2 => k.2.2.1
  | _ => k.2.2.2

/-- The XTEA Feistel half-round mixer `(((v << 4) ^ (v >> 5)) + v)`. -/
def xteaMix (v : Nat) : Nat := ((v * 16 % M32) ^^^ (v / 32)) + v

/-- One XTEA encipher round on the state `(v0, v1, sum)`. -/
def xteaEncRound (k : XteaKey) : Nat × Nat × Nat → Nat × Nat × Nat
  | (v0, v1, sum) =>
    let v0 := (v0 + (xteaMix v1 ^^^ (sum + k.word (sum % 4)))) % M32
    let sum := (sum + xteaDelta) % M32
    let v1 := (v1 + (xteaMix v0 ^^^ (sum + k.word (sum / 2 ^ 11 % 4)))) % M32
    (v0, v1, sum)

/-- One XTEA decipher round on the state `(v0, v1, sum)`. -/
def xteaDecRound (k : XteaKey) : Nat × Nat × Nat → Nat × Nat × Nat
  | (v0, v1, sum) =>
    let v1 := (v1 + M32 - (xteaMix v0 ^^^ (sum + k.word (sum / 2 ^ 11 % 4))) % M32) % M32
    let sum := (sum + M32 - xteaDelta % M32) % M32
    let v0 := (v0 + M32 - (xteaMix v1 ^^^ (sum + k.word (sum % 4))) % M32) % M32
    (v0, v1, sum)

def xteaEncBlock (k : XteaKey) (v : Nat × Nat) : Nat × Nat :=
  let s := (xteaEncRound k)^[32] (v.1, v.2, 0)
  (s.1, s.2.1)

def xteaDecBlock (k : XteaKey) (v : Nat × Nat) : Nat × Nat :=
  let s := (xteaDecRound k)^[32] (v.1, v.2, 32 * xteaDelta % M32)
  (s.1, s.2.1)

def word32be (b0 b1 b2 b3 : Nat) : Nat :=
  (((b0 % 256) * 256 + b1 % 256) * 256 + b2 % 256) * 256 + b3 % 256

/-- Apply a block transform to each full 8-byte block (big-endian words),
leaving a trailing run shorter than 8 bytes untouched. -/
def xteaMap (f : Nat × Nat → Nat × Nat) : List Nat → List Nat
  | b0 :: b1 :: b2 :: b3 :: b4 :: b5 :: b6 :: b7 :: rest =>
      let (w0, w1) := f (word32be b0 b1 b2 b3, word32be b4 b5 b6 b7)
      u32be w0 ++ u32be w1 ++ xteaMap f rest
  | l => l

def xteaEncipher (k : XteaKey) (data : List Nat) : List Nat :=
  xteaMap (xteaEncBlock k) data

def xteaDecipher (k : XteaKey) (data : List Nat) : List Nat :=
  xteaMap (xteaDecBlock k) data

/-! ## The external compression libraries.

bzip2, flate2 and lzma_rs are dependencies, not code of this repository: they
enter the embedding as a record of abstract functions.  `bzC`/`gzC`/`lzC` are
the full library compressor outputs; `bzD`/`gzD`/`lzD` model constructing a
decoder over the given stream and `read_exact`-ing the given number of bytes,
`Option.none` standing for a library/IO error. -/

structure Libs where
  bzC : List Nat → List Nat
  gzC : List Nat → List Nat
  lzC : List Nat → List Nat
  bzD : List Nat → Nat → Option (List Nat)
  gzD : List Nat → Nat → Option (List Nat)
  lzD : List Nat → Nat → Option (List Nat)

/-! ## Buffer and the codec state machine (src/codec.rs) -/

/-- `Buffer<State>` without the phantom parameter: the four value fields. -/
structure RBuffer where
  compression : Compression
  buffer : List Nat
  version : Option Int
  keys : Option XteaKey
deriving DecidableEq, Repr

def RBuffer.fromBytes (data : List Nat) : RBuffer :=
  { compression := .none, buffer := data, version := Option.none, keys := Option.none }

def RBuffer.with_compression (b : RBuffer) (c : Compression) : RBuffer :=
  { b with compression := c }

def RBuffer.with_version (b : RBuffer) (v : Int) : RBuffer :=
  { b with version := some v }

def RBuffer.with_xtea_keys (b : RBuffer) (k : XteaKey) : RBuffer :=
  { b with keys := some k }

/-- Errors of the codec path; `panicked` marks a code path that panics in the
source rather than returning. -/
inductive CodecError where
  | unsupported : Nat → CodecError
  | parseErr : CodecError
  | ioErr : CodecError
deriving DecidableEq, Repr

inductive CResult (α : Type) where
  | ok : α → CResult α
  | err : CodecError → CResult α
  | panicked : CResult α
deriving DecidableEq, Repr

/-- `compress_bzip2`: library output with its first 4 bytes drained. -/
def compress_bzip2 (L : Libs) (data : List Nat) : List Nat :=
  (L.bzC data).drop 4

def compress_gzip (L : Libs) (data : List Nat) : List Nat :=
  L.gzC data

def compress_lzma (L : Libs) (data : List Nat) : List Nat :=
  L.lzC data

/-- The trailing bytes the encoder writes for an optional version
(`if let Some(version) = self.version { write i16 }`). -/
def vbytes : Option Int → List Nat
  | some x => i16be x
  | Option.none => []

/-- `Buffer::<Decoded>::encode`: compress, optionally encipher the compressed
bytes, then frame as tag, compressed length, optional decompressed length,
payload, optional version. -/
def compressOf (L : Libs) (C : Compression) (data : List Nat) : List Nat :=
  match C with
  | .none => data
  | .bzip2 => compress_bzip2 L data
  | .gzip => compress_gzip L data
  | .lzma => compress_lzma L data

def RBuffer.encode (L : Libs) (b : RBuffer) : RBuffer :=
  let decompressed_len := b.buffer.length
  let compressed_data := compressOf L b.compression b.buffer
  let compressed_data :=
    match b.keys with
    | some k => xteaEncipher k compressed_data
    | Option.none => compressed_data
  let frame :=
    [b.compression.tag] ++ u32be compressed_data.length ++
      (if b.compression ≠ .none then u32be decompressed_len else []) ++
      compressed_data ++ vbytes b.version
  { compression := b.compression, buffer := frame, version := b.version, keys := b.keys }

/-- `decompress_none`: take `len` payload bytes; a trailing version is parsed
when at least two bytes remain. -/
def decompress_none (buffer : List Nat) (len : Nat) : CResult (Option Int × List Nat) :=
  match take_ len buffer with
  | Option.none => .err .parseErr
  | some (buffer, data) =>
    let version := if buffer.length ≥ 2 then (be_i16 buffer).map (·.2) else Option.none
    .ok (version, data)

/-- The in-place rewrite of `decompress_bzip2`: copy the stored payload, shift
it right by 4 (`compressed_data[4..len] = data[..len-4]`) and write the four
magic bytes over the front (`compressed_data[..4] = b"BZh1"`).  Panics (slice
range out of bounds) when the stored payload is shorter than 4 bytes. -/
def bzipRewrite (data : List Nat) : List Nat :=
  let len := data.length
  let cd := data.take 4 ++ data.take (len - 4) ++ data.drop (4 + (len - 4))
  [66, 90, 104, 49] ++ cd.drop 4

/-- `decompress_bzip2`: read the decompressed length, take the stored payload,
parse a trailing version, rewrite the magic, decode `decompressed_len` bytes. -/
def decompress_bzip2 (L : Libs) (buffer : List Nat) (len : Nat) :
    CResult (Option Int × List Nat) :=
  match be_u32 buffer with
  | Option.none => .err .parseErr
  | some (buffer, decompressed_len) =>
    match take_ len buffer with
    | Option.none => .err .parseErr
    | some (buffer, data) =>
      let version := if buffer.length ≥ 2 then (be_i16 buffer).map (·.2) else Option.none
      if len < 4 then .panicked
      else
        match L.bzD (bzipRewrite data) decompressed_len with
        | some out => .ok (version, out)
        | Option.none => .err .ioErr

def decompress_gzip (L : Libs) (buffer : List Nat) (len : Nat) :
    CResult (Option Int × List Nat) :=
  match be_u32 buffer with
  | Option.none => .err .parseErr
  | some (buffer, decompressed_len) =>
    match take_ len buffer with
    | Option.none => .err .parseErr
    | some (buffer, data) =>
      let version := if buffer.length ≥ 2 then (be_i16 buffer).map (·.2) else Option.none
      match L.gzD data decompressed_len with
      | some out => .ok (version, out)
      | Option.none => .err .ioErr

/-- `decompress_lzma`: the source calls `.unwrap()` on the library result, so a
library error is a panic, not a returned error. -/
def decompress_lzma (L : Libs) (buffer : List Nat) (len : Nat) :
    CResult (Option Int × List Nat) :=
  match be_u32 buffer with
  | Option.none => .err .parseErr
  | some (buffer, decompressed_len) =>
    match take_ len buffer with
    | Option.none => .err .parseErr
    | some (buffer, data) =>
      let version := if buffer.length ≥ 2 then (be_i16 buffer).map (·.2) else Option.none
      match L.lzD data decompressed_len with
      | some out => .ok (version, out)
      | Option.none => .panicked

/-- `Buffer::<Encoded>::decode`: read the tag and the compressed length,
decipher the whole remainder in place when keys are set, then dispatch. -/
def RBuffer.decode (L : Libs) (b : RBuffer) : CResult RBuffer :=
  match be_u8 b.buffer with
  | Option.none => .err .parseErr
  | some (buffer, tagByte) =>
    match Compression.tryFrom tagByte with
    | Option.none => .err (.unsupported tagByte)
    | some compression =>
      match be_u32 buffer with
      | Option.none => .err .parseErr
      | some (buffer, compressed_len) =>
        let buffer :=
          match b.keys with
          | some k => xteaDecipher k buffer
          | Option.none => buffer
        match (match compression with
               | .none => decompress_none buffer compressed_len
               | .bzip2 => decompress_bzip2 L buffer compressed_len
               | .gzip => decompress_gzip L buffer compressed_len
               | .lzma => decompress_lzma L buffer compressed_len) with
        | .ok (version, data) =>
            .ok { compression := compression, buffer := data,
                  version := version, keys := b.keys }
        | .err e => .err e
        | .panicked => .panicked

/-! ## Concrete library instances used by witnesses and counterexamples.

`wLibs` is a trivial stand-in obeying the interface the codec relies on: its
bzip2 compressor emits the BZh1 magic, the payload and a 4-byte footer, and
its decoders return a prefix of the stream.  `echoLibs` makes every decoder
return the stream it was handed, exposing exactly what the codec passes to
the library.  `failLibs` makes every decoder fail, as the real libraries do
on an undecodable stream. -/

def wLibs : Libs where
  bzC x := [66, 90, 104, 49] ++ x ++ [0, 0, 0, 0]
  gzC x := x
  lzC x := x
  bzD y n := if y.take 4 = [66, 90, 104, 49] then some ((y.drop 4).take n) else Option.none
  gzD y n := some (y.take n)
  lzD y n := some (y.take n)

def echoLibs : Libs where
  bzC x := x
  gzC x := x
  lzC x := x
  bzD y _ := some y
  gzD y _ := some y
  lzD y _ := some y

def failLibs : Libs where
  bzC x := x
  gzC x := x
  lzC x := x
  bzD _ _ := Option.none
  gzD _ _ := Option.none
  lzD _ _ := Option.none

def XBounded (s : Nat × Nat × Nat) : Prop := s.1 < M32 ∧ s.2.1 < M32 ∧ s.2.2 < M32

/-! ## The reference-table metadata parser (src/index.rs) -/

/-- Modelled from the spec: `be_u32_smart` of the missing parse.rs.  Peek the
first byte: top bit clear reads a 16-bit value, top bit set reads a 32-bit
value with the top bit masked off. -/
def be_u32_smart (buf : List Nat) : Option (List Nat × Nat) :=
  match buf with
  | [] => Option.none
  | b :: _ =>
    if b % 256 < 128 then be_u16 buf
    else (be_u32 buf).map (fun p => (p.1, p.2 % 2 ^ 31))

/-- `nom::multi::many0(be_i32)`: parse as many i32 values as the input holds.
The fuel counts iterations; since every successful `be_i32` consumes 4 bytes,
`buf.length` iterations can never be exhausted early. -/
def many0_be_i32_aux (fuel : Nat) (buf : List Nat) : List Int :=
  match fuel with
  | 0 => []
  | fuel + 1 =>
    match be_i32 buf with
    | Option.none => []
    | some (rest, v) => v :: many0_be_i32_aux fuel rest

def many0_be_i32 (buf : List Nat) : List Int :=
  many0_be_i32_aux buf.length buf

/-- `nom::multi::many_m_n(0, n, p)`: up to `n` parses, stopping at the first
failure; with a lower bound of 0 it never fails. -/
def many_up_to {α : Type} (p : List Nat → Option (List Nat × α)) :
    Nat → List Nat → List Nat × List α
  | 0, buf => (buf, [])
  | n + 1, buf =>
    match p buf with
    | Option.none => (buf, [])
    | some (buf', a) =>
      let r := many_up_to p n buf'
      (r.1, a :: r.2)

/-- `cond(c, take(n))`. -/
def condTake (c : Bool) (n : Nat) (buf : List Nat) :
    Option (List Nat × Option (List Nat)) :=
  if c then (take_ n buf).map (fun p => (p.1, some p.2)) else some (buf, Option.none)

/-- `parse_identified`: the flags byte split into identified, whirlpool,
codec and hash bits. -/
def parse_identified (buf : List Nat) : Option (List Nat × (Bool × Bool × Bool × Bool)) :=
  (be_u8 buf).map fun p =>
    let flags := p.2
    (p.1, ((1 &&& flags) ≠ 0 : Bool), ((2 &&& flags) ≠ 0 : Bool),
      ((flags &&& 4) ≠ 0 : Bool), ((flags &&& 8) ≠ 0 : Bool))

/-- `parse_hashes`: when the flag is set, take `archive_count * 4` bytes and
parse them as i32 values; when the parsed count disagrees with
`archive_count`, fall back to a vector of `archive_count * 4` zeros. -/
def parse_hashes (buf : List Nat) (hash : Bool) (archive_count : Nat) :
    Option (List Nat × List Int) := do
  let (buf, taken) ← condTake hash (archive_count * 4) buf
  let hashes := many0_be_i32 (taken.getD [])
  let hashes :=
    if hashes.length ≠ archive_count then List.replicate (archive_count * 4) 0 else hashes
  pure (buf, hashes)

/-- `chunks_exact(n)`: the full `n`-byte chunks of a list.  Fueled like
`many0_be_i32_aux`; each step drops `n ≥ 1` elements. -/
def chunksExactAux (fuel n : Nat) (l : List Nat) : List (List Nat) :=
  match fuel with
  | 0 => []
  | fuel + 1 =>
    if n = 0 ∨ l.length < n then [] else l.take n :: chunksExactAux fuel n (l.drop n)

def chunksExact (n : Nat) (l : List Nat) : List (List Nat) :=
  chunksExactAux l.length n l

/-- `parse_whirlpools`: 64-byte digests copied positionally over a zeroed
table. -/
def parse_whirlpools (buf : List Nat) (whirlpool : Bool) (archive_count : Nat) :
    Option (List Nat × List (List Nat)) := do
  let (buf, taken) ← condTake whirlpool (archive_count * 64) buf
  let base := List.replicate archive_count (List.replicate 64 0)
  let whirlpools :=
    ((chunksExact 64 (taken.getD [])).enum).foldl (fun ws p => ws.set p.1 p.2) base
  let whirlpools :=
    if whirlpools.length ≠ archive_count then
      List.replicate archive_count (List.replicate 64 0)
    else whirlpools
  pure (buf, whirlpools)

def parse_archive_count (buf : List Nat) (protocol : Nat) : Option (List Nat × Nat) :=
  if protocol ≥ 7 then be_u32_smart buf else be_u16 buf

/-- `parse_ids`: up to `archive_count` deltas, smart 32-bit when protocol ≥ 7,
else plain big-endian u16 widened to u32 (zero-extension, the `as u32` cast). -/
def parse_ids (buf : List Nat) (protocol : Nat) (archive_count : Nat) :
    List Nat × List Nat :=
  if protocol ≥ 7 then many_up_to be_u32_smart archive_count buf
  else many_up_to be_u16 archive_count buf

def parse_entry_counts (buf : List Nat) (protocol : Nat) (archive_count : Nat) :
    List Nat × List Nat :=
  if protocol ≥ 7 then many_up_to be_u32_smart archive_count buf
  else many_up_to be_u16 archive_count buf

/-- The unsigned wrapping cumulative sum of `parse_valid_ids`
(`id += current_id` on `u32`). -/
def u32cumsum (id : Nat) : List Nat → List Nat
  | [] => []
  | c :: cs =>
    let id' := (id + c) % 2 ^ 32
    id' :: u32cumsum id' cs

/-- `parse_valid_ids`: per archive, parse its entry-id modifiers and
delta-decode them by unsigned cumulative sum. -/
def parse_valid_ids (protocol : Nat) : List Nat → List Nat → List Nat × List (List Nat)
  | buf, [] => (buf, [])
  | buf, ec :: ecs =>
    let r :=
      if protocol ≥ 7 then many_up_to be_u32_smart ec buf
      else many_up_to be_u16 ec buf
    let ids := u32cumsum 0 r.2
    let rest := parse_valid_ids protocol r.1 ecs
    (rest.1, ids :: rest.2)

/-- `i32` reinterpretation of a `u32` value (`id as i32`). -/
def toI32 (n : Nat) : Int :=
  if n % 2 ^ 32 < 2 ^ 31 then (n % 2 ^ 32 : Nat) else (n % 2 ^ 32 : Nat) - 2 ^ 32

/-- Wrapping `i32` addition result normalization. -/
def wrapI32 (x : Int) : Int := (x + 2 ^ 31) % 2 ^ 32 - 2 ^ 31

/-- `u32` reinterpretation of an `i32` value (`last_archive_id as u32`). -/
def toU32 (x : Int) : Nat := (x % 2 ^ 32).toNat

/-- Modelled from the spec: `ArchiveMetadata` lives in the missing archive.rs;
per the spec it is the per-archive descriptor with id, name hash, crc, extra
hash, whirlpool digest, version, entry count and child entry ids, exactly the
fields the parser in src/index.rs populates. -/
structure ArchiveMetadata where
  id : Nat
  name_hash : Int
  crc : Nat
  hash : Int
  whirlpool : List Nat
  version : Nat
  entry_count : Nat
  valid_ids : List Nat
deriving DecidableEq, Repr

/-- The final loop of `IndexMetadata::from_slice`: `izip!` over the eight
parsed columns (stopping at the shortest), accumulating archive ids in a
signed `i32` accumulator (`last_archive_id += id as i32`) and storing its
`u32` cast. -/
def mkArchives (last : Int) :
    List Nat → List Int → List Nat → List Int → List (List Nat) → List Nat → List Nat →
      List (List Nat) → List ArchiveMetadata
  | id :: ids, nh :: nhs, crc :: crcs, h :: hs, w :: ws, v :: vs, ec :: ecs, vi :: vis =>
    let last' := wrapI32 (last + toI32 id)
    ⟨toU32 last', nh, crc, h, w, v, ec, vi⟩ ::
      mkArchives last' ids nhs crcs hs ws vs ecs vis
  | _, _, _, _, _, _, _, _ => []

/-- `IndexMetadata::from_slice`. -/
def metadataFromSlice (buffer : List Nat) : Option (List ArchiveMetadata) := do
  let (buffer, protocol) ← be_u8 buffer
  let (buffer, _) ←
    if protocol ≥ 6 then (be_u32 buffer).map (fun p => (p.1, some p.2))
    else some (buffer, Option.none)
  let (buffer, flags) ← parse_identified buffer
  let (identified, whirlpool, codec, hash) := flags
  let (buffer, archive_count) ← parse_archive_count buffer protocol
  let r1 := parse_ids buffer protocol archive_count
  let (buffer, ids) := r1
  let (buffer, name_hashes) ← parse_hashes buffer identified archive_count
  let r2 := many_up_to be_u32 archive_count buffer
  let (buffer, crcs) := r2
  let (buffer, hashes) ← parse_hashes buffer hash archive_count
  let (buffer, whirlpools) ← parse_whirlpools buffer whirlpool archive_count
  let r3 := if codec then many_up_to be_u8 (archive_count * 8) buffer else (buffer, [])
  let buffer := r3.1
  let r4 := many_up_to be_u32 archive_count buffer
  let (buffer, versions) := r4
  let r5 := parse_entry_counts buffer protocol archive_count
  let (buffer, entry_counts) := r5
  let r6 := parse_valid_ids protocol buffer entry_counts
  let valid_ids := r6.2
  pure (mkArchives 0 ids name_hashes crcs hashes whirlpools versions entry_counts valid_ids)

/-! ## C7: delta-decoding signedness -/

/-- Spec-words recurrence: a signed i32 accumulator over the parsed u32
deltas (each reinterpreted as i32), whose running value is cast to an
unsigned id. -/
def specIdsSigned (last : Int) : List Nat → List Nat
  | [] => []
  | d :: ds =>
    let last' := wrapI32 (last + toI32 d)
    toU32 last' :: specIdsSigned last' ds

/-- Spec-words recurrence: the unsigned u32 cumulative sum with an exact
accumulator, each emitted id reduced modulo 2^32. -/
def specCumsum (id : Nat) : List Nat → List Nat
  | [] => []
  | c :: cs => (id + c) % 2 ^ 32 :: specCumsum (id + c) cs

/-- The id decoding the claim asserts for the non-smart path: 16-bit deltas
SIGN-extended before entering the signed accumulator. -/
def claimIdsSignExt (last : Int) : List Nat → List Nat
  | [] => []
  | d :: ds =>
    let last' := wrapI32 (last + (if d < 32768 then (d : Int) else (d : Int) - 65536))
    toU32 last' :: claimIdsSignExt last' ds

/-! ## The data-file reader (src/lib.rs) -/

def SectorHeaderSize.headerLen : SectorHeaderSize → Nat
  | .normal => SECTOR_HEADER_SIZE
  | .expanded => SECTOR_EXPANDED_HEADER_SIZE

def SectorHeaderSize.dataLen : SectorHeaderSize → Nat
  | .normal => SECTOR_DATA_SIZE
  | .expanded => SECTOR_EXPANDED_DATA_SIZE

/-- Modelled from the spec: `ArchiveRef::data_blocks()` of the missing
archive.rs.  Per the spec, chunk `i` consumes `min(remaining,
data_block_size)` payload bytes and the slice taken for it is the 520-byte
slot or the final shorter slot, i.e. header size plus that payload share.
Fueled; each step removes `dsize ≥ 1` from `remaining`, so `remaining`
iterations never exhaust early. -/
def dataBlocksAux (fuel hsize dsize remaining : Nat) : List Nat :=
  match fuel with
  | 0 => []
  | fuel + 1 =>
    if remaining = 0 ∨ dsize = 0 then []
    else (hsize + min remaining dsize) :: dataBlocksAux fuel hsize dsize (remaining - dsize)

def dataBlocks (hsize dsize remaining : Nat) : List Nat :=
  dataBlocksAux remaining hsize dsize remaining

def ArchiveRef.data_blocks (r : ArchiveRef) : List Nat :=
  let hs := SectorHeaderSize.fromRef r
  dataBlocks hs.headerLen hs.dataLen r.length

/-- Outcomes of `Dat2::read`/`read_into_writer`: a sector-header mismatch (a
`ReadError`), a sector parse failure (`ParseError::Sector`), or a panic (the
out-of-range slice of the memory map, or a failed `assert_eq`). -/
inductive ReadResult (α : Type) where
  | ok : α → ReadResult α
  | err : ReadError → ReadResult α
  | sectorParse : Nat → ReadResult α
  | panicked : ReadResult α
deriving DecidableEq, Repr

/-- The loop of `Dat2::read_into_writer`: chase the sector chain, validating
each header and appending each sector's data block to the writer. -/
def readChunks (dat : List Nat) (r : ArchiveRef) (hs : SectorHeaderSize) :
    List Nat → Nat → Nat → List Nat → ReadResult (List Nat)
  | [], _, _, acc => .ok acc
  | dlen :: rest, chunk, current, acc =>
    let offset := current * SECTOR_SIZE
    if offset + dlen ≤ dat.length then
      match Sector.new ((dat.drop offset).take dlen) hs with
      | some s =>
        match s.header.validate r.id chunk r.index_id with
        | .ok _ => readChunks dat r hs rest (chunk + 1) s.header.next (acc ++ s.data_block)
        | .error e => .err e
      | Option.none => .sectorParse r.sector
    else .panicked

/-- `Dat2::read_into_writer` with an in-memory writer. -/
def readIntoWriter (dat : List Nat) (r : ArchiveRef) : ReadResult (List Nat) :=
  readChunks dat r (SectorHeaderSize.fromRef r) r.data_blocks 0 r.sector []

/-- `Dat2::read`: run `read_into_writer` into a fresh buffer, then
`assert_eq!(buffer.len(), archive_ref.length)`. -/
def dat2Read (dat : List Nat) (r : ArchiveRef) : ReadResult (List Nat) :=
  match readIntoWriter dat r with
  | .ok buf => if buf.length = r.length then .ok buf else .panicked
  | .err e => .err e
  | .sectorParse s => .sectorParse s
  | .panicked => .panicked

/-! ## The indices loader (src/index.rs) -/

/-- Modelled from the spec: `ArchiveRef::from_buffer` of the missing
archive.rs: a fixed 6-byte record, 3-byte big-endian length followed by
3-byte big-endian first sector. -/
def ArchiveRef.from_buffer (archive_id index_id : Nat) (buf : List Nat) :
    Option ArchiveRef := do
  let (buf, length) ← be_u24 buf
  let (_, sector) ← be_u24 buf
  pure ⟨archive_id, index_id, sector, length⟩

/-- `Index`: id, locator table and attached metadata. -/
structure Index where
  id : Nat
  archive_refs : List (Nat × ArchiveRef)
  metadata : List ArchiveMetadata
deriving DecidableEq, Repr

/-- The record loop of `Index::from_buffer`: the 6-byte chunks of the file,
record `i` describing archive `i`. -/
def buildRefs (id : Nat) : Nat → List (List Nat) → Option (List (Nat × ArchiveRef))
  | _, [] => some []
  | i, c :: cs => do
    let r ← ArchiveRef.from_buffer i id c
    let rest ← buildRefs id (i + 1) cs
    pure ((i, r) :: rest)

def Index.from_buffer (id : Nat) (buffer : List Nat) : Option Index :=
  (buildRefs id 0 (chunksExact 6 buffer)).map (fun refs => ⟨id, refs, []⟩)

/-- Outcome of loading the indices: a value, a propagated error, or a panic
(the `expect` on an unparseable index number or the extension-mismatch panic
of `Index::from_path`). -/
inductive LoadResult (α : Type) where
  | ok : α → LoadResult α
  | err : LoadResult α
  | panicked : LoadResult α
deriving DecidableEq, Repr

/-- `Dat2::metadata`: read the archive, decode it, parse the metadata. -/
def dat2Metadata (L : Libs) (dat : List Nat) (r : ArchiveRef) :
    LoadResult (List ArchiveMetadata) :=
  match dat2Read dat r with
  | .ok buf =>
    match RBuffer.decode L (RBuffer.fromBytes buf) with
    | .ok b =>
      match metadataFromSlice b.buffer with
      | some md => .ok md
      | Option.none => .err
    | .err _ => .err
    | .panicked => .panicked
  | .err _ => .err
  | .sectorParse _ => .err
  | .panicked => .panicked

def idxChars : List Char := ['i', 'd', 'x']

def digitVal (c : Char) : Option Nat :=
  if '0' ≤ c ∧ c ≤ '9' then some (c.toNat - 48) else Option.none

def digitsToNat : List Nat → Nat → Nat
  | [], acc => acc
  | d :: ds, acc => digitsToNat ds (acc * 10 + d)

/-- `str::parse::<u8>`: all-digit strings whose value fits in a u8; anything
else is an error (and hence, under `expect`, a panic). -/
def parseU8 (s : List Char) : Option Nat :=
  if s = [] then Option.none
  else
    match s.mapM digitVal with
    | some ds =>
      let n := digitsToNat ds 0
      if n ≤ 255 then some n else Option.none
    | Option.none => Option.none

def digitChar (d : Nat) : Char := Char.ofNat (48 + d % 10)

/-- `format!("{}", n)` for `n ≤ 255`: at most three decimal digits, no
leading zeros. -/
def u8ToChars (n : Nat) : List Char :=
  if n < 10 then [digitChar n]
  else if n < 100 then [digitChar (n / 10), digitChar n]
  else [digitChar (n / 100), digitChar (n / 10), digitChar n]

/-- A directory entry as the loader sees it: the path's extension (`None`
when the path has none) and the file's contents. -/
structure DirEntry where
  ext : Option (List Char)
  content : List Nat

/-- The index id a directory entry contributes to the map: its extension is
`idx{N}` with `N` parsing as a u8 other than 255. -/
def entryKey (e : DirEntry) : Option Nat :=
  match e.ext with
  | Option.none => Option.none
  | some ext =>
    if ext.take 3 = idxChars then
      match parseU8 (ext.drop 3) with
      | some n => if n = 255 then Option.none else some n
      | Option.none => Option.none
    else Option.none

/-- The directory scan of `Indices::new`: for each entry with an `idx{N}`
extension, parse `N` (panicking like `expect` on failure), skip 255, load the
index (with the `Index::from_path` extension re-check, which panics on
mismatch), look its locator up in the reference table, attach decoded
metadata when the locator's length is nonzero, and insert under key `N`. -/
def indicesLoop (L : Libs) (refIdx : Index) (dat : List Nat) :
    List DirEntry → List (Nat × Index) → LoadResult (List (Nat × Index))
  | [], acc => .ok acc
  | e :: es, acc =>
    match e.ext with
    | Option.none => indicesLoop L refIdx dat es acc
    | some ext =>
      if ext.take 3 = idxChars then
        match parseU8 (ext.drop 3) with
        | Option.none => .panicked
        | some n =>
          if n = 255 then indicesLoop L refIdx dat es acc
          else if ext ≠ idxChars ++ u8ToChars n then .panicked
          else
            match Index.from_buffer n e.content with
            | Option.none => .err
            | some idx =>
              match List.lookup n refIdx.archive_refs with
              | Option.none => .err
              | some aref =>
                if aref.length ≠ 0 then
                  match dat2Metadata L dat aref with
                  | .ok md =>
                    indicesLoop L refIdx dat es ((n, { idx with metadata := md }) :: acc)
                  | .err => .err
                  | .panicked => .panicked
                else indicesLoop L refIdx dat es ((n, idx) :: acc)
      else indicesLoop L refIdx dat es acc

/-- `Indices::new`: load the reference table, scan the directory, insert the
reference table under key 255. -/
def indicesNew (L : Libs) (refBytes dat : List Nat) (entries : List DirEntry) :
    LoadResult (List (Nat × Index)) :=
  match Index.from_buffer 255 refBytes with
  | Option.none => .err
  | some refIdx =>
    match indicesLoop L refIdx dat entries [] with
    | .ok acc => .ok ((255, refIdx) :: acc)
    | .err => .err
    | .panicked => .panicked

def demoEntries : List DirEntry := [⟨some ['i', 'd', 'x', '0'], []⟩]

def demoRef : Index := ⟨255, [(0, ⟨0, 255, 0, 0⟩)], []⟩

def demoMap : List (Nat × Index) := [(255, demoRef), (0, ⟨0, [], []⟩)]

/-! ## Byte-level round-trip lemmas -/

theorem be_u32_u32be (n : Nat) (l : List Nat) (h : n < 2 ^ 32) :
    be_u32 (u32be n ++ l) = some (l, n) := by
  simp only [u32be, List.cons_append, List.nil_append, be_u32]
  congr 1
  congr 1
  omega

theorem take_append_exact (a b : List Nat) : take_ a.length (a ++ b) = some (b, a) := by
  simp [take_, List.take_left, List.drop_left]

theorem take_self (l : List Nat) : take_ l.length l = some ([], l) := by
  have := take_append_exact l []
  simpa using this

theorem be_i16_i16be (v : Int) (l : List Nat) (h1 : -32768 ≤ v) (h2 : v < 32768) :
    be_i16 (i16be v ++ l) = some (l, v) := by
  have hm : (0:Int) ≤ v % 65536 := Int.emod_nonneg v (by norm_num)
  have hm2 : v % 65536 < 65536 := Int.emod_lt_of_pos v (by norm_num)
  have hmlt : (v % 65536).toNat < 65536 := by omega
  simp only [i16be, be_i16, be_u16, List.cons_append, List.nil_append, Option.map_some,
    Option.map_some']
  have key : (v % 65536).toNat / 256 % 256 * 256 + (v % 65536).toNat % 256 % 256
      = (v % 65536).toNat := by omega
  rw [key]
  by_cases hc : (v % 65536).toNat < 32768
  · rw [if_pos hc]
    simp only [Option.some.injEq, Prod.mk.injEq, true_and]
    omega
  · rw [if_neg hc]
    simp only [Option.some.injEq, Prod.mk.injEq, true_and]
    omega

/-- Parsing the version tail the encoder wrote restores the version, for
in-range (`i16`) versions. -/
theorem version_of_vbytes (v : Option Int) (hv : ∀ x ∈ v, -32768 ≤ x ∧ x < 32768) :
    (if (vbytes v).length ≥ 2 then (be_i16 (vbytes v)).map (·.2) else Option.none) = v := by
  cases v with
  | none => simp [vbytes]
  | some x =>
    have hx := hv x (by simp)
    have h2 : (vbytes (some x)).length = 2 := by simp [vbytes, i16be]
    rw [if_pos (by omega)]
    have := be_i16_i16be x [] hx.1 hx.2
    rw [List.append_nil] at this
    simp [vbytes, this]

/-! ## XTEA inversion: deciphering inverts enciphering -/

theorem mod_add_sub_cancel (a x : Nat) (h : a < M32) :
    ((a + x) % M32 + M32 - x % M32) % M32 = a := by
  simp only [M32] at *
  omega

theorem xteaEncRound_bounded (k : XteaKey) (s : Nat × Nat × Nat) :
    XBounded (xteaEncRound k s) := by
  obtain ⟨v0, v1, sum⟩ := s
  refine ⟨?_, ?_, ?_⟩ <;> simp [xteaEncRound, M32] <;> omega

theorem xteaDecRound_encRound (k : XteaKey) (s : Nat × Nat × Nat) (hb : XBounded s) :
    xteaDecRound k (xteaEncRound k s) = s := by
  obtain ⟨v0, v1, sum⟩ := s
  obtain ⟨h0, h1, h2⟩ := hb
  simp only [xteaEncRound, xteaDecRound]
  generalize hX1 : xteaMix v1 ^^^ (sum + k.word (sum % 4)) = X1
  generalize hS : (sum + xteaDelta) % M32 = S
  generalize hX2 : xteaMix ((v0 + X1) % M32) ^^^ (S + k.word (S / 2 ^ 11 % 4)) = X2
  have hv1 : ((v1 + X2) % M32 + M32 - X2 % M32) % M32 = v1 := mod_add_sub_cancel v1 X2 h1
  rw [hv1]
  have hSb : (S + M32 - xteaDelta % M32) % M32 = sum := by
    rw [← hS]
    exact mod_add_sub_cancel sum xteaDelta h2
  rw [hSb, hX1]
  have hv0 : ((v0 + X1) % M32 + M32 - X1 % M32) % M32 = v0 := mod_add_sub_cancel v0 X1 h0
  rw [hv0]

theorem xteaEncRound_iterate_bounded (k : XteaKey) (s : Nat × Nat × Nat) (hb : XBounded s) :
    ∀ n, XBounded ((xteaEncRound k)^[n] s) := by
  intro n
  induction n with
  | zero => simpa
  | succ n ih =>
    rw [Function.iterate_succ_apply']
    exact xteaEncRound_bounded k _

theorem xteaDec_iterate_enc (k : XteaKey) (s : Nat × Nat × Nat) (hb : XBounded s) :
    ∀ n, (xteaDecRound k)^[n] ((xteaEncRound k)^[n] s) = s := by
  intro n
  induction n with
  | zero => rfl
  | succ n ih =>
    rw [Function.iterate_succ_apply' (xteaEncRound k) n s, Function.iterate_succ_apply]
    rw [xteaDecRound_encRound k _ (xteaEncRound_iterate_bounded k s hb n)]
    exact ih

theorem xteaEncRound_sum (k : XteaKey) (s : Nat × Nat × Nat) :
    (xteaEncRound k s).2.2 = (s.2.2 + xteaDelta) % M32 := by
  obtain ⟨a, b, c⟩ := s
  simp [xteaEncRound]

theorem xteaEnc_iterate_sum (k : XteaKey) (v0 v1 : Nat) :
    ∀ n, ((xteaEncRound k)^[n] (v0, v1, 0)).2.2 = n * xteaDelta % M32 := by
  intro n
  induction n with
  | zero =>
    simp [M32]
  | succ n ih =>
    rw [Function.iterate_succ_apply', xteaEncRound_sum, ih]
    simp only [xteaDelta, M32]
    omega

theorem xteaDecBlock_encBlock (k : XteaKey) (v0 v1 : Nat) (h0 : v0 < M32) (h1 : v1 < M32) :
    xteaDecBlock k (xteaEncBlock k (v0, v1)) = (v0, v1) := by
  unfold xteaEncBlock xteaDecBlock
  dsimp only
  have hsum := xteaEnc_iterate_sum k v0 v1 32
  have hinv := xteaDec_iterate_enc k (v0, v1, 0) ⟨h0, h1, by simp [M32]⟩ 32
  have h3 : (((xteaEncRound k)^[32] (v0, v1, 0)).1,
      ((xteaEncRound k)^[32] (v0, v1, 0)).2.1, 32 * xteaDelta % M32)
      = (xteaEncRound k)^[32] (v0, v1, 0) := by
    rw [← hsum]
  rw [h3, hinv]

theorem xteaEncBlock_lt (k : XteaKey) (v : Nat × Nat) :
    (xteaEncBlock k v).1 < M32 ∧ (xteaEncBlock k v).2 < M32 := by
  obtain ⟨v0, v1⟩ := v
  have h : (xteaEncRound k)^[32] (v0, v1, 0)
      = xteaEncRound k ((xteaEncRound k)^[31] (v0, v1, 0)) :=
    Function.iterate_succ_apply' (xteaEncRound k) 31 (v0, v1, 0)
  unfold xteaEncBlock
  dsimp only
  rw [h]
  have hb := xteaEncRound_bounded k ((xteaEncRound k)^[31] (v0, v1, 0))
  exact ⟨hb.1, hb.2.1⟩

theorem xteaMap_cons8 (f : Nat × Nat → Nat × Nat) (b0 b1 b2 b3 b4 b5 b6 b7 : Nat)
    (rest : List Nat) :
    xteaMap f (b0 :: b1 :: b2 :: b3 :: b4 :: b5 :: b6 :: b7 :: rest)
      = u32be (f (word32be b0 b1 b2 b3, word32be b4 b5 b6 b7)).1
        ++ u32be (f (word32be b0 b1 b2 b3, word32be b4 b5 b6 b7)).2
        ++ xteaMap f rest := rfl

theorem word32be_lt (b0 b1 b2 b3 : Nat) : word32be b0 b1 b2 b3 < M32 := by
  simp only [word32be, M32]
  omega

theorem u32be_word32be (b0 b1 b2 b3 : Nat) (h0 : b0 < 256) (h1 : b1 < 256)
    (h2 : b2 < 256) (h3 : b3 < 256) :
    u32be (word32be b0 b1 b2 b3) = [b0, b1, b2, b3] := by
  simp only [u32be, word32be, List.cons.injEq, and_true]
  omega

theorem word32be_u32be (n : Nat) (h : n < M32) :
    word32be (n / 2 ^ 24 % 256) (n / 2 ^ 16 % 256) (n / 2 ^ 8 % 256) (n % 256) = n := by
  simp only [word32be, M32] at *
  omega

theorem xteaMap_u32be_append (f : Nat × Nat → Nat × Nat) (a b : Nat)
    (ha : a < M32) (hb : b < M32) (m : List Nat) :
    xteaMap f (u32be a ++ u32be b ++ m)
      = u32be (f (a, b)).1 ++ u32be (f (a, b)).2 ++ xteaMap f m := by
  simp only [u32be, List.cons_append, List.nil_append]
  rw [xteaMap_cons8]
  rw [word32be_u32be a ha, word32be_u32be b hb]
  simp [u32be]

theorem xtea_map_inv_aux (k : XteaKey) :
    ∀ (n : Nat) (l : List Nat), l.length ≤ n → (∀ b ∈ l, b < 256) →
      xteaDecipher k (xteaEncipher k l) = l := by
  intro n
  induction n with
  | zero =>
    intro l hl hb
    match l with
    | [] => rfl
  | succ n ih =>
    intro l hl hb
    match l with
    | [] => rfl
    | [c0] => rfl
    | [c0, c1] => rfl
    | [c0, c1, c2] => rfl
    | [c0, c1, c2, c3] => rfl
    | [c0, c1, c2, c3, c4] => rfl
    | [c0, c1, c2, c3, c4, c5] => rfl
    | [c0, c1, c2, c3, c4, c5, c6] => rfl
    | b0 :: b1 :: b2 :: b3 :: b4 :: b5 :: b6 :: b7 :: rest =>
      simp only [xteaEncipher, xteaDecipher] at *
      rw [xteaMap_cons8]
      rw [xteaMap_u32be_append _ _ _ (xteaEncBlock_lt k _).1 (xteaEncBlock_lt k _).2]
      have hpair : ((xteaEncBlock k (word32be b0 b1 b2 b3, word32be b4 b5 b6 b7)).1,
          (xteaEncBlock k (word32be b0 b1 b2 b3, word32be b4 b5 b6 b7)).2)
          = xteaEncBlock k (word32be b0 b1 b2 b3, word32be b4 b5 b6 b7) := rfl
      rw [hpair]
      rw [xteaDecBlock_encBlock k _ _ (word32be_lt b0 b1 b2 b3) (word32be_lt b4 b5 b6 b7)]
      have hrest : xteaMap (xteaDecBlock k) (xteaMap (xteaEncBlock k) rest) = rest := by
        refine ih rest ?_ ?_
        · simp only [List.length_cons] at hl
          omega
        · intro b hbm
          exact hb b (by simp [hbm])
      rw [hrest]
      rw [u32be_word32be b0 b1 b2 b3 (hb b0 (by simp)) (hb b1 (by simp)) (hb b2 (by simp))
        (hb b3 (by simp))]
      rw [u32be_word32be b4 b5 b6 b7 (hb b4 (by simp)) (hb b5 (by simp)) (hb b6 (by simp))
        (hb b7 (by simp))]
      simp

/-- Deciphering inverts enciphering on any byte list (trailing bytes are left
untouched by both). -/
theorem xtea_decipher_encipher (k : XteaKey) (l : List Nat) (hb : ∀ b ∈ l, b < 256) :
    xteaDecipher k (xteaEncipher k l) = l :=
  xtea_map_inv_aux k l.length l le_rfl hb

theorem xteaMap_length_aux (f : Nat × Nat → Nat × Nat) :
    ∀ (n : Nat) (l : List Nat), l.length ≤ n → (xteaMap f l).length = l.length := by
  intro n
  induction n with
  | zero =>
    intro l hl
    match l with
    | [] => rfl
  | succ n ih =>
    intro l hl
    match l with
    | [] => rfl
    | [c0] => rfl
    | [c0, c1] => rfl
    | [c0, c1, c2] => rfl
    | [c0, c1, c2, c3] => rfl
    | [c0, c1, c2, c3, c4] => rfl
    | [c0, c1, c2, c3, c4, c5] => rfl
    | [c0, c1, c2, c3, c4, c5, c6] => rfl
    | b0 :: b1 :: b2 :: b3 :: b4 :: b5 :: b6 :: b7 :: rest =>
      rw [xteaMap_cons8]
      simp only [List.length_append, u32be, List.length_cons, List.length_nil]
      have : (xteaMap f rest).length = rest.length := by
        refine ih rest ?_
        simp only [List.length_cons] at hl
        omega
      simp [this]
      omega

theorem xteaEncipher_length (k : XteaKey) (l : List Nat) :
    (xteaEncipher k l).length = l.length :=
  xteaMap_length_aux (xteaEncBlock k) l.length l le_rfl

/-! ## C1: the codec round-trip -/

/-- The keyless round-trip: with no XTEA keys set, decoding an encoding
restores the payload and version for all four compressions, given that the
libraries invert the byte streams the codec hands them. -/
theorem codec_roundtrip_keyless (L : Libs) (P : List Nat) (C : Compression) (v : Option Int)
    (hv : ∀ x ∈ v, -32768 ≤ x ∧ x < 32768)
    (hlen : P.length < 2 ^ 32)
    (hbz8 : 8 ≤ (L.bzC P).length)
    (hbzLen : (L.bzC P).length - 4 < 2 ^ 32)
    (hbzD : L.bzD (bzipRewrite ((L.bzC P).drop 4)) P.length = some P)
    (hgzLen : (L.gzC P).length < 2 ^ 32)
    (hgzD : L.gzD (L.gzC P) P.length = some P)
    (hlzLen : (L.lzC P).length < 2 ^ 32)
    (hlzD : L.lzD (L.lzC P) P.length = some P) :
    RBuffer.decode L (RBuffer.encode L ⟨C, P, v, Option.none⟩) =
      .ok ⟨C, P, v, Option.none⟩ := by
  cases C with
  | none =>
    simp only [RBuffer.encode, RBuffer.decode, compressOf]
    simp only [Compression.tag, ne_eq, not_true_eq_false, ite_false, List.append_nil,
      List.nil_append]
    have hframe : ([0] ++ u32be P.length) ++ P ++ vbytes v
        = 0 :: (u32be P.length ++ (P ++ vbytes v)) := by
      simp [List.append_assoc]
    rw [hframe]
    simp only [be_u8, Nat.zero_mod, Compression.tryFrom]
    rw [be_u32_u32be _ _ hlen]
    simp only [decompress_none]
    rw [take_append_exact P _]
    simp [version_of_vbytes v hv]
  | bzip2 =>
    simp only [RBuffer.encode, RBuffer.decode, compressOf, compress_bzip2]
    simp only [Compression.tag, ne_eq, reduceCtorEq, not_false_eq_true, ite_true]
    have hframe : ([1] ++ u32be ((L.bzC P).drop 4).length ++ u32be P.length)
          ++ (L.bzC P).drop 4 ++ vbytes v
        = 1 :: (u32be ((L.bzC P).drop 4).length
            ++ (u32be P.length ++ ((L.bzC P).drop 4 ++ vbytes v))) := by
      simp [List.append_assoc]
    rw [hframe]
    simp only [be_u8, Compression.tryFrom]
    have hcl : ((L.bzC P).drop 4).length < 2 ^ 32 := by
      simp only [List.length_drop]; omega
    rw [be_u32_u32be _ _ hcl]
    simp only [decompress_bzip2]
    rw [be_u32_u32be _ _ hlen]
    dsimp only
    rw [take_append_exact ((L.bzC P).drop 4) _]
    dsimp only
    have h4 : ¬ ((L.bzC P).drop 4).length < 4 := by
      simp only [List.length_drop]; omega
    simp only [h4, if_false, hbzD]
    simp [version_of_vbytes v hv]
  | gzip =>
    simp only [RBuffer.encode, RBuffer.decode, compressOf, compress_gzip]
    simp only [Compression.tag, ne_eq, reduceCtorEq, not_false_eq_true, ite_true]
    have hframe : ([2] ++ u32be (L.gzC P).length ++ u32be P.length) ++ L.gzC P ++ vbytes v
        = 2 :: (u32be (L.gzC P).length ++ (u32be P.length ++ (L.gzC P ++ vbytes v))) := by
      simp [List.append_assoc]
    rw [hframe]
    simp only [be_u8, Compression.tryFrom]
    rw [be_u32_u32be _ _ hgzLen]
    simp only [decompress_gzip]
    rw [be_u32_u32be _ _ hlen]
    dsimp only
    rw [take_append_exact (L.gzC P) _]
    dsimp only
    simp only [hgzD]
    simp [version_of_vbytes v hv]
  | lzma =>
    simp only [RBuffer.encode, RBuffer.decode, compressOf, compress_lzma]
    simp only [Compression.tag, ne_eq, reduceCtorEq, not_false_eq_true, ite_true]
    have hframe : ([3] ++ u32be (L.lzC P).length ++ u32be P.length) ++ L.lzC P ++ vbytes v
        = 3 :: (u32be (L.lzC P).length ++ (u32be P.length ++ (L.lzC P ++ vbytes v))) := by
      simp [List.append_assoc]
    rw [hframe]
    simp only [be_u8, Compression.tryFrom]
    rw [be_u32_u32be _ _ hlzLen]
    simp only [decompress_lzma]
    rw [be_u32_u32be _ _ hlen]
    dsimp only
    rw [take_append_exact (L.lzC P) _]
    dsimp only
    simp only [hlzD]
    simp [version_of_vbytes v hv]

/-- The keyed round-trip does hold in the sub-case where the enciphered and
deciphered regions coincide: compression None with no version, any key and
any byte payload (the deciphered remainder is then exactly the enciphered
compressed payload). -/
theorem codec_roundtrip_keyed_none (L : Libs) (P : List Nat) (k : XteaKey)
    (hbytes : ∀ b ∈ P, b < 256) (hlen : P.length < 2 ^ 32) :
    RBuffer.decode L (RBuffer.encode L ⟨.none, P, Option.none, some k⟩) =
      .ok ⟨.none, P, Option.none, some k⟩ := by
  simp only [RBuffer.encode, RBuffer.decode, compressOf, vbytes]
  simp only [Compression.tag, ne_eq, not_true_eq_false, ite_false, List.append_nil,
    List.nil_append]
  have hframe : ([0] ++ u32be (xteaEncipher k P).length) ++ xteaEncipher k P
      = 0 :: (u32be (xteaEncipher k P).length ++ xteaEncipher k P) := by
    simp [List.append_assoc]
  rw [hframe]
  simp only [be_u8, Nat.zero_mod, Compression.tryFrom]
  rw [be_u32_u32be _ _ (by rw [xteaEncipher_length]; exact hlen)]
  dsimp only
  rw [xtea_decipher_encipher k P hbytes]
  simp only [decompress_none, xteaEncipher_length]
  rw [take_self P]
  simp

/-- C1 (amended): the round-trip `decode(encode(P, C, v, k)) = (P, v)` holds
for every payload, every compression among None, Bzip2, Gzip, Lzma and every
in-range optional version whenever NO XTEA keys are set (given that the
compression libraries invert the exact byte streams the codec hands them;
for bzip2 that stream has the 4-byte magic written over a right-shifted
copy), and, with keys set, in the sub-case compression None with no version;
with keys set it fails in general, because encode enciphers only the
compressed payload while decode deciphers the entire remainder. -/
theorem codec_roundtrip_cases :
    (∀ (L : Libs) (P : List Nat) (C : Compression) (v : Option Int),
      (∀ x ∈ v, -32768 ≤ x ∧ x < 32768) → P.length < 2 ^ 32 →
      8 ≤ (L.bzC P).length → (L.bzC P).length - 4 < 2 ^ 32 →
      L.bzD (bzipRewrite ((L.bzC P).drop 4)) P.length = some P →
      (L.gzC P).length < 2 ^ 32 → L.gzD (L.gzC P) P.length = some P →
      (L.lzC P).length < 2 ^ 32 → L.lzD (L.lzC P) P.length = some P →
      RBuffer.decode L (RBuffer.encode L ⟨C, P, v, Option.none⟩) =
        .ok ⟨C, P, v, Option.none⟩)
    ∧ (∀ (L : Libs) (P : List Nat) (k : XteaKey),
      (∀ b ∈ P, b < 256) → P.length < 2 ^ 32 →
      RBuffer.decode L (RBuffer.encode L ⟨.none, P, Option.none, some k⟩) =
        .ok ⟨.none, P, Option.none, some k⟩) :=
  ⟨codec_roundtrip_keyless, codec_roundtrip_keyed_none⟩

/-- C1 witness: the keyless round-trip at a concrete bzip2 input with a
version, and the keyed round-trip at a concrete payload. -/
theorem codec_roundtrip_cases_witness :
    RBuffer.decode wLibs (RBuffer.encode wLibs ⟨.bzip2, [9, 8, 7], some 7, Option.none⟩) =
      .ok ⟨.bzip2, [9, 8, 7], some 7, Option.none⟩
    ∧ RBuffer.decode wLibs (RBuffer.encode wLibs
        ⟨.none, [1, 2, 3, 4, 5, 6, 7, 8], Option.none, some (1, 2, 3, 4)⟩) =
      .ok ⟨.none, [1, 2, 3, 4, 5, 6, 7, 8], Option.none, some (1, 2, 3, 4)⟩ :=
  ⟨codec_roundtrip_cases.1 wLibs [9, 8, 7] .bzip2 (some 7)
    (by decide) (by decide) (by decide) (by decide) (by decide) (by decide) (by decide)
    (by decide) (by decide),
   codec_roundtrip_cases.2 wLibs [1, 2, 3, 4, 5, 6, 7, 8] (1, 2, 3, 4)
    (by decide) (by decide)⟩

/-- C1 counterexample: with XTEA keys set, the round-trip fails: for the
6-byte payload `[0,0,0,0,0,0]`, compression None, version 7 and the all-zero
key, encode enciphers only the (block-short, hence untouched) payload, while
decode deciphers the 8-byte remainder payload-plus-version as one XTEA block,
so the decoded buffer is not the original payload and version. -/
theorem codec_roundtrip_with_keys_fails :
    ¬ (RBuffer.decode wLibs (RBuffer.encode wLibs
        ⟨.none, [0, 0, 0, 0, 0, 0], some 7, some (0, 0, 0, 0)⟩) =
      .ok ⟨.none, [0, 0, 0, 0, 0, 0], some 7, some (0, 0, 0, 0)⟩) := by
  decide

/-! ## Further byte-level helper lemmas -/


theorem take_eq_some {n : Nat} {l rest data : List Nat} (h : take_ n l = some (rest, data)) :
    rest = l.drop n ∧ data = l.take n ∧ n ≤ l.length := by
  unfold take_ at h
  split at h
  · simp only [Option.some.injEq, Prod.mk.injEq] at h
    exact ⟨h.1.symm, h.2.symm, by assumption⟩
  · cases h

theorem be_i16_isSome (l : List Nat) (h : 2 ≤ l.length) : (be_i16 l).isSome := by
  match l with
  | b0 :: b1 :: rest => simp [be_i16, be_u16]

/-- The bzip2 rewrite in closed form: for a stored payload of at least 4
bytes, the decompressor input is the magic followed by all but the last 4
bytes of the stored payload. -/
theorem bzipRewrite_eq (stored : List Nat) (h4 : 4 ≤ stored.length) :
    bzipRewrite stored = [66, 90, 104, 49] ++ stored.take (stored.length - 4) := by
  have hlen4 : (stored.take 4).length = 4 := by
    simp [List.length_take]
    omega
  have hdropnil : stored.drop (4 + (stored.length - 4)) = [] := by
    apply List.drop_eq_nil_of_le
    omega
  simp only [bzipRewrite, hdropnil, List.append_nil]
  rw [List.drop_left' hlen4]

/-- `decompress_none` parses a version exactly when at least two bytes remain
after the payload. -/
theorem decompress_none_version_iff (buffer : List Nat) (len : Nat) (ver : Option Int)
    (data : List Nat) (h : decompress_none buffer len = .ok (ver, data)) :
    ver.isSome ↔ 2 ≤ buffer.length - len := by
  simp only [decompress_none] at h
  cases ht : take_ len buffer with
  | none => rw [ht] at h; cases h
  | some p =>
    obtain ⟨rest', data'⟩ := p
    rw [ht] at h
    obtain ⟨hr, hd, hle⟩ := take_eq_some ht
    dsimp only at h
    simp only [CResult.ok.injEq, Prod.mk.injEq] at h
    obtain ⟨hver, hdata⟩ := h
    subst hver
    subst hr
    constructor
    · intro hs
      by_contra hlt
      rw [if_neg (by simp only [List.length_drop, ge_iff_le]; omega)] at hs
      simp at hs
    · intro h2
      rw [if_pos (by simp only [List.length_drop, ge_iff_le]; omega)]
      have := be_i16_isSome (buffer.drop len) (by simp only [List.length_drop]; omega)
      simpa using this

/-- A successful decode keeps the encoded buffer's keys and takes its
compression from the frame's first byte. -/
theorem decode_keys_carried (L : Libs) (b r : RBuffer) (h : RBuffer.decode L b = .ok r) :
    r.keys = b.keys
    ∧ ∃ rest t, be_u8 b.buffer = some (rest, t)
        ∧ Compression.tryFrom t = some r.compression := by
  unfold RBuffer.decode at h
  repeat' split at h
  any_goals cases h
  all_goals dsimp only at h
  all_goals split at h
  any_goals cases h
  all_goals exact ⟨rfl, _, _, by assumption, by assumption⟩

/-! ## C3: bzip2 header rewriting -/

/-- C3 counterexample: the decode-side rewrite does not hand the decompressor
the magic followed by the entire stored payload.  With a decoder that echoes
its input, the stored payload `[10,11,12,13,14]` is decoded from input
`BZh1 ++ [10]`: the final four stored bytes are dropped, not preserved. -/
theorem bzip2_rewrite_drops_tail :
    decompress_bzip2 echoLibs (u32be 9 ++ [10, 11, 12, 13, 14]) 5
      = .ok (Option.none, [66, 90, 104, 49, 10])
    ∧ [66, 90, 104, 49, 10] ≠ [66, 90, 104, 49] ++ [10, 11, 12, 13, 14] := by
  decide

/-- C3 (amended): on encode the first 4 bytes of the bzip2 library's output
are stripped before framing; on decode the literal bytes B, Z, h, 1 are
written over a right-shifted copy of the stored payload, so the decompressor
receives the BZh1 magic followed by all but the LAST FOUR bytes of the stored
payload (the shift drops them). -/
theorem bzip2_strip_and_overwrite (L : Libs) (x stored : List Nat) (declen : Nat)
    (h4 : 4 ≤ stored.length) (h32 : declen < 2 ^ 32) :
    compress_bzip2 L x = (L.bzC x).drop 4
    ∧ bzipRewrite stored = [66, 90, 104, 49] ++ stored.take (stored.length - 4)
    ∧ decompress_bzip2 L (u32be declen ++ stored) stored.length
        = (match L.bzD ([66, 90, 104, 49] ++ stored.take (stored.length - 4)) declen with
           | some out => .ok (Option.none, out)
           | Option.none => .err .ioErr) := by
  refine ⟨rfl, bzipRewrite_eq stored h4, ?_⟩
  simp only [decompress_bzip2]
  rw [be_u32_u32be _ _ h32]
  dsimp only
  rw [take_self stored]
  dsimp only
  rw [if_neg (by omega), bzipRewrite_eq stored h4]
  cases L.bzD ([66, 90, 104, 49] ++ stored.take (stored.length - 4)) declen <;> simp

/-- C3 witness: the strip-and-overwrite facts at a concrete stored payload. -/
theorem bzip2_strip_and_overwrite_witness :
    compress_bzip2 echoLibs [1, 2] = (echoLibs.bzC [1, 2]).drop 4
    ∧ bzipRewrite [10, 11, 12, 13, 14]
        = [66, 90, 104, 49] ++ [10, 11, 12, 13, 14].take ([10, 11, 12, 13, 14].length - 4)
    ∧ decompress_bzip2 echoLibs (u32be 9 ++ [10, 11, 12, 13, 14]) [10, 11, 12, 13, 14].length
        = (match echoLibs.bzD
              ([66, 90, 104, 49] ++ [10, 11, 12, 13, 14].take ([10, 11, 12, 13, 14].length - 4)) 9
           with
           | some out => .ok (Option.none, out)
           | Option.none => .err .ioErr) :=
  bzip2_strip_and_overwrite echoLibs [1, 2] [10, 11, 12, 13, 14] 9 (by decide) (by decide)

/-! ## C5: the frame layout -/

/-- C5: encoding writes, in order, the compression tag byte, the compressed
length as u32 big-endian, the decompressed length as u32 big-endian iff the
compression is not None, the compressed payload, and the version as i16
big-endian iff a version is set; encoding payload `[0,1,2]` with compression
None and version 7 yields `00 00 00 00 03 00 01 02 00 07`; and on decode with
compression None a version is parsed iff at least two bytes remain after the
payload. -/
theorem encode_frame_fields :
    (∀ (L : Libs) (P : List Nat) (C : Compression) (v : Option Int),
      (RBuffer.encode L ⟨C, P, v, Option.none⟩).buffer
        = [C.tag] ++ u32be (compressOf L C P).length
            ++ (if C ≠ .none then u32be P.length else [])
            ++ compressOf L C P ++ vbytes v)
    ∧ (RBuffer.encode echoLibs ⟨.none, [0, 1, 2], some 7, Option.none⟩).buffer
        = [0, 0, 0, 0, 3, 0, 1, 2, 0, 7]
    ∧ (∀ (buffer : List Nat) (len : Nat) (ver : Option Int) (data : List Nat),
        decompress_none buffer len = .ok (ver, data) →
          (ver.isSome ↔ 2 ≤ buffer.length - len)) :=
  ⟨fun _ _ _ _ => rfl, by decide, decompress_none_version_iff⟩

/-! ## C10: decode reads only the frame and the keys -/

/-- C10: `Buffer<Encoded>::decode` takes the resulting compression from the
frame's first byte and ignores any compression or version previously set with
`with_compression`/`with_version`, while the XTEA keys field is carried over
unchanged into the decoded buffer. -/
theorem decode_from_frame_only :
    (∀ (L : Libs) (b : RBuffer) (c : Compression) (x : Int),
        RBuffer.decode L ((b.with_compression c).with_version x) = RBuffer.decode L b)
    ∧ (∀ (L : Libs) (b r : RBuffer), RBuffer.decode L b = .ok r →
        r.keys = b.keys
        ∧ ∃ rest t, be_u8 b.buffer = some (rest, t)
            ∧ Compression.tryFrom t = some r.compression) :=
  ⟨fun _ _ _ _ => rfl, decode_keys_carried⟩

/-! ## C6: sector header validation -/

/-- C6: `SectorHeader::validate(archive_id, chunk, index_id)` is Ok iff all
three fields match, and otherwise returns the mismatch error of the first
offending field in order archive, chunk, index, carrying found and expected;
for the header `{archive_id: 0, chunk: 0, next: 2, index_id: 255}`:
`validate(1,0,255)` is `SectorArchiveMismatch(0,1)`, `validate(0,1,255)` is
`SectorChunkMismatch(0,1)`, `validate(0,0,0)` is `SectorIndexMismatch(255,0)`. -/
theorem sector_validate_spec :
    (∀ (h : SectorHeader) (a c i : Nat),
      (h.validate a c i = .ok () ↔ h.archive_id = a ∧ h.chunk = c ∧ h.index_id = i)
      ∧ (h.archive_id ≠ a → h.validate a c i = .error (.sectorArchiveMismatch h.archive_id a))
      ∧ (h.archive_id = a → h.chunk ≠ c →
          h.validate a c i = .error (.sectorChunkMismatch h.chunk c))
      ∧ (h.archive_id = a → h.chunk = c → h.index_id ≠ i →
          h.validate a c i = .error (.sectorIndexMismatch h.index_id i)))
    ∧ (SectorHeader.mk 0 0 2 255).validate 1 0 255 = .error (.sectorArchiveMismatch 0 1)
    ∧ (SectorHeader.mk 0 0 2 255).validate 0 1 255 = .error (.sectorChunkMismatch 0 1)
    ∧ (SectorHeader.mk 0 0 2 255).validate 0 0 0 = .error (.sectorIndexMismatch 255 0) := by
  refine ⟨?_, rfl, rfl, rfl⟩
  intro h a c i
  unfold SectorHeader.validate
  refine ⟨?_, ?_, ?_, ?_⟩
  · split_ifs <;> simp_all
  · intro hne; rw [if_pos hne]
  · intro ha hc; rw [if_neg (by simp [ha]), if_pos hc]
  · intro ha hc hi; rw [if_neg (by simp [ha]), if_neg (by simp [hc]), if_pos hi]

theorem be_i32_some_length {buf rest : List Nat} {v : Int}
    (h : be_i32 buf = some (rest, v)) : rest.length + 4 = buf.length := by
  match buf with
  | b0 :: b1 :: b2 :: b3 :: r =>
    simp only [be_i32, be_u32, Option.map_some', Option.some.injEq, Prod.mk.injEq] at h
    obtain ⟨rfl, -⟩ := h
    simp
  | [] | [_] | [_, _] | [_, _, _] => simp [be_i32, be_u32] at h

theorem mkArchives_ids (last : Int) (ds : List Nat) (nhs : List Int) (crcs : List Nat)
    (hs : List Int) (ws : List (List Nat)) (vs : List Nat) (ecs : List Nat)
    (vis : List (List Nat))
    (h1 : ds.length ≤ nhs.length) (h2 : ds.length ≤ crcs.length)
    (h3 : ds.length ≤ hs.length) (h4 : ds.length ≤ ws.length)
    (h5 : ds.length ≤ vs.length) (h6 : ds.length ≤ ecs.length)
    (h7 : ds.length ≤ vis.length) :
    (mkArchives last ds nhs crcs hs ws vs ecs vis).map ArchiveMetadata.id
      = specIdsSigned last ds := by
  induction ds generalizing last nhs crcs hs ws vs ecs vis with
  | nil => simp [mkArchives, specIdsSigned]
  | cons d ds ih =>
    match nhs, crcs, hs, ws, vs, ecs, vis with
    | nh :: nhs, crc :: crcs, h :: hs, w :: ws, v :: vs, ec :: ecs, vi :: vis =>
      simp only [mkArchives, specIdsSigned, List.map_cons, List.cons.injEq, true_and]
      exact ih _ _ _ _ _ _ _ _ (by simpa using h1) (by simpa using h2) (by simpa using h3)
        (by simpa using h4) (by simpa using h5) (by simpa using h6) (by simpa using h7)
    | [], _, _, _, _, _, _ => simp at h1
    | _ :: _, [], _, _, _, _, _ => simp at h2
    | _ :: _, _ :: _, [], _, _, _, _ => simp at h3
    | _ :: _, _ :: _, _ :: _, [], _, _, _ => simp at h4
    | _ :: _, _ :: _, _ :: _, _ :: _, [], _, _ => simp at h5
    | _ :: _, _ :: _, _ :: _, _ :: _, _ :: _, [], _ => simp at h6
    | _ :: _, _ :: _, _ :: _, _ :: _, _ :: _, _ :: _, [] => simp at h7

theorem u32cumsum_eq_specCumsum (ms : List Nat) : ∀ id id', id % 2 ^ 32 = id' % 2 ^ 32 →
    u32cumsum id ms = specCumsum id' ms := by
  induction ms with
  | nil => intro id id' h; rfl
  | cons c cs ih =>
    intro id id' h
    simp only [u32cumsum, specCumsum, List.cons.injEq]
    constructor
    · omega
    · exact ih _ _ (by omega)

theorem be_u16_lt {buf rest : List Nat} {v : Nat} (h : be_u16 buf = some (rest, v)) :
    v < 65536 := by
  match buf with
  | b0 :: b1 :: r =>
    simp only [be_u16, Option.some.injEq, Prod.mk.injEq] at h
    omega
  | [] | [_] => simp [be_u16] at h

theorem many_up_to_be_u16_lt : ∀ (n : Nat) (buf : List Nat),
    ∀ a ∈ (many_up_to be_u16 n buf).2, a < 65536 := by
  intro n
  induction n with
  | zero => intro buf a ha; simp [many_up_to] at ha
  | succ n ih =>
    intro buf a ha
    simp only [many_up_to] at ha
    cases hb : be_u16 buf with
    | none => rw [hb] at ha; simp at ha
    | some p =>
      rw [hb] at ha
      simp only [List.mem_cons] at ha
      rcases ha with rfl | ha
      · exact be_u16_lt hb
      · exact ih _ _ ha

theorem toI32_small (d : Nat) (h : d < 65536) : toI32 d = (d : Int) := by
  unfold toI32
  rw [if_pos (by omega)]
  congr 1
  omega

/-- C7 counterexample: a protocol-5 reference table whose single 16-bit id
delta is `0xFFFF`.  The parser yields absolute id 65535 (the delta is
zero-extended by the `as u32` cast), whereas the claim's sign-extended
reading would accumulate -1 and cast it to 4294967295. -/
theorem metadata_u16_delta_not_sign_extended :
    (metadataFromSlice [5, 0, 0, 1, 255, 255, 0, 0, 0, 0, 0, 0, 0, 0, 0, 0]).map
        (fun l => l.map ArchiveMetadata.id) = some [65535]
    ∧ claimIdsSignExt 0 [65535] = [4294967295]
    ∧ (65535 : Nat) ≠ 4294967295 := by
  decide

/-- C7 (amended): absolute archive ids come from a signed i32 accumulator
over the parsed deltas — 16-bit deltas in the non-smart path being
ZERO-extended, so they are never negative — with the running value cast to an
unsigned id, whereas valid_ids come from an unsigned u32 cumulative sum of
the entry-id modifiers; the signed/unsigned asymmetry holds for every parsed
payload. -/
theorem metadata_delta_asymmetry :
    (∀ (last : Int) (ds : List Nat) (nhs : List Int) (crcs : List Nat) (hs : List Int)
        (ws : List (List Nat)) (vs : List Nat) (ecs : List Nat) (vis : List (List Nat)),
      ds.length ≤ nhs.length → ds.length ≤ crcs.length → ds.length ≤ hs.length →
      ds.length ≤ ws.length → ds.length ≤ vs.length → ds.length ≤ ecs.length →
      ds.length ≤ vis.length →
      (mkArchives last ds nhs crcs hs ws vs ecs vis).map ArchiveMetadata.id
        = specIdsSigned last ds)
    ∧ (∀ (buf : List Nat) (protocol count : Nat), protocol < 7 →
        ∀ d ∈ (parse_ids buf protocol count).2, d < 65536 ∧ toI32 d = (d : Int))
    ∧ (∀ (id : Nat) (ms : List Nat), u32cumsum id ms = specCumsum id ms) := by
  refine ⟨fun last ds nhs crcs hs ws vs ecs vis h1 h2 h3 h4 h5 h6 h7 =>
    mkArchives_ids last ds nhs crcs hs ws vs ecs vis h1 h2 h3 h4 h5 h6 h7, ?_,
    fun id ms => u32cumsum_eq_specCumsum ms id id rfl⟩
  intro buf protocol count hp d hd
  unfold parse_ids at hd
  rw [if_neg (by omega)] at hd
  have hlt := many_up_to_be_u16_lt count buf d hd
  exact ⟨hlt, toI32_small d hlt⟩

/-! ## C8: the name-hash column -/

/-- C8: with the identified flag clear the fallback column has
`archive_count * 4` zeros, not `archive_count` — at `archive_count = 1` the
column has length 4.  With the flag set the column is the `archive_count`
parsed big-endian i32 values; and on the identified-clear counterexample
payload every produced `ArchiveMetadata` still has `name_hash = 0` because
the zip truncates to the id column. -/
theorem parse_hashes_fallback_len :
    parse_hashes [] false 1 = some ([], List.replicate 4 0)
    ∧ (List.replicate 4 (0 : Int)).length ≠ 1
    ∧ parse_hashes [0, 0, 0, 5, 255, 255, 255, 255] true 2 = some ([], [5, -1])
    ∧ (metadataFromSlice [5, 0, 0, 1, 255, 255, 0, 0, 0, 0, 0, 0, 0, 0, 0, 0]).map
        (fun l => l.map ArchiveMetadata.name_hash) = some [0] := by
  decide

/-! ## C4: data-dependent panics -/

/-- C4: evaluating the decoder at a frame whose tag selects LZMA, with a
library that reports a decode error (as lzma_rs does on an undecodable
stream), the code panics (`.unwrap()` in `decompress_lzma`) instead of
returning an error; and reading an archive whose sector chain runs past the
end of a truncated data file panics (the out-of-range slice of the memory
map) instead of returning an error. -/
theorem lzma_library_error_panics :
    RBuffer.decode failLibs
      ⟨.none, [3, 0, 0, 0, 1, 0, 0, 0, 5, 99], Option.none, Option.none⟩ = .panicked
    ∧ dat2Read [] ⟨0, 0, 0, 600⟩ = .panicked := by
  decide

theorem be_u16_some_length {buf rest : List Nat} {v : Nat}
    (h : be_u16 buf = some (rest, v)) : buf.length = rest.length + 2 := by
  match buf with
  | b0 :: b1 :: r =>
    simp only [be_u16, Option.some.injEq, Prod.mk.injEq] at h
    obtain ⟨rfl, -⟩ := h
    simp
  | [] | [_] => simp [be_u16] at h

theorem be_u24_some_length {buf rest : List Nat} {v : Nat}
    (h : be_u24 buf = some (rest, v)) : buf.length = rest.length + 3 := by
  match buf with
  | b0 :: b1 :: b2 :: r =>
    simp only [be_u24, Option.some.injEq, Prod.mk.injEq] at h
    obtain ⟨rfl, -⟩ := h
    simp
  | [] | [_] | [_, _] => simp [be_u24] at h

theorem be_u32_some_length {buf rest : List Nat} {v : Nat}
    (h : be_u32 buf = some (rest, v)) : buf.length = rest.length + 4 := by
  match buf with
  | b0 :: b1 :: b2 :: b3 :: r =>
    simp only [be_u32, Option.some.injEq, Prod.mk.injEq] at h
    obtain ⟨rfl, -⟩ := h
    simp
  | [] | [_] | [_, _] | [_, _, _] => simp [be_u32] at h

theorem be_u8_some_length {buf rest : List Nat} {v : Nat}
    (h : be_u8 buf = some (rest, v)) : buf.length = rest.length + 1 := by
  match buf with
  | b0 :: r =>
    simp only [be_u8, Option.some.injEq, Prod.mk.injEq] at h
    obtain ⟨rfl, -⟩ := h
    simp
  | [] => simp [be_u8] at h

theorem sectorHeader_new_length {buf rest : List Nat} {hd : SectorHeader}
    {hs : SectorHeaderSize} (h : SectorHeader.new buf hs = some (rest, hd)) :
    buf.length = rest.length + hs.headerLen := by
  cases hs with
  | normal =>
    simp only [SectorHeader.new, Option.bind_eq_bind, Option.bind_eq_some] at h
    obtain ⟨⟨r1, a⟩, h1, h⟩ := h
    obtain ⟨⟨r2, c⟩, h2, h⟩ := h
    obtain ⟨⟨r3, n⟩, h3, h⟩ := h
    obtain ⟨⟨r4, i⟩, h4, h⟩ := h
    simp only [Option.some.injEq, Prod.mk.injEq] at h
    obtain ⟨rfl, -⟩ := h
    have e1 := be_u16_some_length h1
    have e2 := be_u16_some_length h2
    have e3 := be_u24_some_length h3
    have e4 := be_u8_some_length h4
    dsimp only at e2 e3 e4
    simp only [SectorHeaderSize.headerLen, SECTOR_HEADER_SIZE]
    omega
  | expanded =>
    simp only [SectorHeader.new, Option.bind_eq_bind, Option.bind_eq_some] at h
    obtain ⟨⟨r1, a⟩, h1, h⟩ := h
    obtain ⟨⟨r2, c⟩, h2, h⟩ := h
    obtain ⟨⟨r3, n⟩, h3, h⟩ := h
    obtain ⟨⟨r4, i⟩, h4, h⟩ := h
    simp only [Option.some.injEq, Prod.mk.injEq] at h
    obtain ⟨rfl, -⟩ := h
    have e1 := be_u32_some_length h1
    have e2 := be_u16_some_length h2
    have e3 := be_u24_some_length h3
    have e4 := be_u8_some_length h4
    dsimp only at e2 e3 e4
    simp only [SectorHeaderSize.headerLen, SECTOR_EXPANDED_HEADER_SIZE]
    omega

theorem sector_new_data_length {buf : List Nat} {hs : SectorHeaderSize} {s : Sector}
    (h : Sector.new buf hs = some s) : s.data_block.length = buf.length - hs.headerLen := by
  simp only [Sector.new, Option.bind_eq_bind, Option.bind_eq_some] at h
  obtain ⟨⟨rest, hd⟩, h1, h2⟩ := h
  simp only [pure, Option.some.injEq] at h2
  subst h2
  have e1 := sectorHeader_new_length h1
  simp only
  omega

theorem dataBlocksAux_sum (hsize dsize : Nat) (hd : 1 ≤ dsize) :
    ∀ (fuel remaining : Nat), remaining ≤ fuel →
      ((dataBlocksAux fuel hsize dsize remaining).map (fun d => d - hsize)).sum
        = remaining := by
  intro fuel
  induction fuel with
  | zero => intro remaining h; interval_cases remaining; simp [dataBlocksAux]
  | succ fuel ih =>
    intro remaining h
    by_cases hr : remaining = 0
    · subst hr
      simp [dataBlocksAux]
    · simp only [dataBlocksAux, if_neg (by omega : ¬ (remaining = 0 ∨ dsize = 0)),
        List.map_cons, List.sum_cons]
      have := ih (remaining - dsize) (by omega)
      omega

theorem dataBlocks_sum (hsize dsize remaining : Nat) (hd : 1 ≤ dsize) :
    ((dataBlocks hsize dsize remaining).map (fun d => d - hsize)).sum = remaining :=
  dataBlocksAux_sum hsize dsize hd remaining remaining le_rfl

theorem readChunks_ok_length (dat : List Nat) (r : ArchiveRef) (hs : SectorHeaderSize) :
    ∀ (dlens : List Nat) (chunk cur : Nat) (acc buf : List Nat),
      readChunks dat r hs dlens chunk cur acc = .ok buf →
      buf.length = acc.length + ((dlens.map (fun d => d - hs.headerLen)).sum) := by
  intro dlens
  induction dlens with
  | nil =>
    intro chunk cur acc buf h
    simp only [readChunks, ReadResult.ok.injEq] at h
    subst h
    simp
  | cons dlen rest ih =>
    intro chunk cur acc buf h
    simp only [readChunks] at h
    split at h
    · rename_i hbound
      cases hsec : Sector.new ((dat.drop (cur * SECTOR_SIZE)).take dlen) hs with
      | none => rw [hsec] at h; cases h
      | some s =>
        rw [hsec] at h
        dsimp only at h
        cases hval : s.header.validate r.id chunk r.index_id with
        | error e => rw [hval] at h; cases h
        | ok u =>
          rw [hval] at h
          dsimp only at h
          have hlen := ih _ _ _ _ h
          have hdata := sector_new_data_length hsec
          have hslice : ((dat.drop (cur * SECTOR_SIZE)).take dlen).length = dlen := by
            simp only [List.length_take, List.length_drop]
            omega
          rw [hslice] at hdata
          simp only [List.length_append] at hlen
          simp only [List.map_cons, List.sum_cons]
          omega
    · cases h

/-- C2: for every data file and every `ArchiveRef`, a successful
`Dat2::read` (equivalently `read_into_writer`) produces a buffer of exactly
`ref.length` bytes; every other outcome is a sector/validation error (or a
panic, which is not a return), so no buffer of another length is ever
returned, and the `assert_eq` in `read` never fires on a successful walk. -/
theorem dat2_read_exact_length :
    (∀ (dat : List Nat) (r : ArchiveRef) (buf : List Nat),
        readIntoWriter dat r = .ok buf → buf.length = r.length)
    ∧ (∀ (dat : List Nat) (r : ArchiveRef) (buf : List Nat),
        dat2Read dat r = .ok buf → buf.length = r.length)
    ∧ (∀ (dat : List Nat) (r : ArchiveRef) (buf : List Nat),
        readIntoWriter dat r = .ok buf → dat2Read dat r = .ok buf)
    ∧ dat2Read ([0, 0, 0, 0, 0, 0, 0, 0] ++ [5, 6, 7]) ⟨0, 0, 0, 3⟩ = .ok [5, 6, 7] := by
  have main : ∀ (dat : List Nat) (r : ArchiveRef) (buf : List Nat),
      readIntoWriter dat r = .ok buf → buf.length = r.length := by
    intro dat r buf h
    unfold readIntoWriter at h
    have hlen := readChunks_ok_length dat r (SectorHeaderSize.fromRef r) _ _ _ _ _ h
    unfold ArchiveRef.data_blocks at hlen
    rw [dataBlocks_sum _ _ _ (by cases SectorHeaderSize.fromRef r <;>
      simp [SectorHeaderSize.dataLen, SECTOR_DATA_SIZE, SECTOR_EXPANDED_DATA_SIZE])] at hlen
    simpa using hlen
  refine ⟨main, ?_, ?_, by decide⟩
  · intro dat r buf h
    unfold dat2Read at h
    cases hr : readIntoWriter dat r with
    | ok b =>
      rw [hr] at h
      dsimp only at h
      split at h
      · simp only [ReadResult.ok.injEq] at h
        subst h
        assumption
      · cases h
    | err e => rw [hr] at h; cases h
    | sectorParse s => rw [hr] at h; cases h
    | panicked => rw [hr] at h; cases h
  · intro dat r buf h
    unfold dat2Read
    rw [h]
    dsimp only
    rw [if_pos (main dat r buf h)]

theorem lookup_cons_isSome {α : Type} (k n : Nat) (v : α) (l : List (Nat × α)) :
    (List.lookup k ((n, v) :: l)).isSome ↔ k = n ∨ (List.lookup k l).isSome := by
  simp only [List.lookup]
  by_cases h : k = n
  · simp [h]
  · simp [beq_false_of_ne h, h]

theorem lookup_cons_eq {α : Type} {k n : Nat} {v w : α} {l : List (Nat × α)}
    (h : List.lookup k ((n, v) :: l) = some w) :
    (k = n ∧ w = v) ∨ (k ≠ n ∧ List.lookup k l = some w) := by
  simp only [List.lookup] at h
  by_cases he : k = n
  · left
    refine ⟨he, ?_⟩
    rw [beq_iff_eq.mpr he] at h
    simp only [Option.some.injEq] at h
    exact h.symm
  · right
    rw [beq_false_of_ne he] at h
    exact ⟨he, h⟩

theorem Index.from_buffer_id {id : Nat} {buffer : List Nat} {idx : Index}
    (h : Index.from_buffer id buffer = some idx) : idx.id = id := by
  simp only [Index.from_buffer, Option.map_eq_some'] at h
  obtain ⟨refs, -, rfl⟩ := h
  rfl

theorem entryKey_some {e : DirEntry} {ext : List Char} {n : Nat}
    (hext : e.ext = some ext) (hpre : ext.take 3 = idxChars)
    (hp : parseU8 (ext.drop 3) = some n) (h255 : ¬ n = 255) :
    entryKey e = some n := by
  simp [entryKey, hext, hpre, hp, h255]

theorem indicesLoop_ids (L : Libs) (refIdx : Index) (dat : List Nat) :
    ∀ (entries : List DirEntry) (acc m : List (Nat × Index)),
      indicesLoop L refIdx dat entries acc = .ok m →
      (∀ k idx, List.lookup k acc = some idx → idx.id = k) →
      ∀ k idx, List.lookup k m = some idx → idx.id = k := by
  intro entries
  induction entries with
  | nil =>
    intro acc m h hacc
    simp only [indicesLoop, LoadResult.ok.injEq] at h
    subst h
    exact hacc
  | cons e es ih =>
    intro acc m h hacc
    simp only [indicesLoop] at h
    cases hext : e.ext with
    | none => rw [hext] at h; exact ih _ _ h hacc
    | some ext =>
      rw [hext] at h
      dsimp only at h
      split at h
      case isTrue hpre =>
        cases hp : parseU8 (ext.drop 3) with
        | none => rw [hp] at h; cases h
        | some n =>
          rw [hp] at h
          dsimp only at h
          split at h
          case isTrue h255 => exact ih _ _ h hacc
          case isFalse h255 =>
            split at h
            case isTrue hmm => cases h
            case isFalse hmm =>
              cases hib : Index.from_buffer n e.content with
              | none => rw [hib] at h; cases h
              | some idx =>
                rw [hib] at h
                dsimp only at h
                cases hlk : List.lookup n refIdx.archive_refs with
                | none => rw [hlk] at h; cases h
                | some aref =>
                  rw [hlk] at h
                  dsimp only at h
                  have hid := Index.from_buffer_id hib
                  split at h
                  case isTrue hlen =>
                    cases hmd : dat2Metadata L dat aref with
                    | ok md =>
                      rw [hmd] at h
                      refine ih _ _ h ?_
                      intro k i hk
                      rcases lookup_cons_eq hk with ⟨rfl, rfl⟩ | ⟨-, hk2⟩
                      · exact hid
                      · exact hacc _ _ hk2
                    | err => rw [hmd] at h; cases h
                    | panicked => rw [hmd] at h; cases h
                  case isFalse hlen =>
                    refine ih _ _ h ?_
                    intro k i hk
                    rcases lookup_cons_eq hk with ⟨rfl, rfl⟩ | ⟨-, hk2⟩
                    · exact hid
                    · exact hacc _ _ hk2
      case isFalse hpre => exact ih _ _ h hacc

theorem indicesLoop_keys (L : Libs) (refIdx : Index) (dat : List Nat) :
    ∀ (entries : List DirEntry) (acc m : List (Nat × Index)),
      indicesLoop L refIdx dat entries acc = .ok m →
      ∀ k, (List.lookup k m).isSome
        ↔ ((∃ e ∈ entries, entryKey e = some k) ∨ (List.lookup k acc).isSome) := by
  intro entries
  induction entries with
  | nil =>
    intro acc m h k
    simp only [indicesLoop, LoadResult.ok.injEq] at h
    subst h
    simp
  | cons e es ih =>
    intro acc m h k
    simp only [indicesLoop] at h
    cases hext : e.ext with
    | none =>
      rw [hext] at h
      rw [ih _ _ h k]
      have hek : entryKey e = Option.none := by simp [entryKey, hext]
      simp [List.mem_cons, hek]
    | some ext =>
      rw [hext] at h
      dsimp only at h
      split at h
      case isTrue hpre =>
        cases hp : parseU8 (ext.drop 3) with
        | none => rw [hp] at h; cases h
        | some n =>
          rw [hp] at h
          dsimp only at h
          split at h
          case isTrue h255 =>
            rw [ih _ _ h k]
            have hek : entryKey e = Option.none := by
              simp [entryKey, hext, hpre, hp, h255]
            simp [List.mem_cons, hek]
          case isFalse h255 =>
            split at h
            case isTrue hmm => cases h
            case isFalse hmm =>
              have hek : entryKey e = some n := entryKey_some hext hpre hp h255
              cases hib : Index.from_buffer n e.content with
              | none => rw [hib] at h; cases h
              | some idx =>
                rw [hib] at h
                dsimp only at h
                cases hlk : List.lookup n refIdx.archive_refs with
                | none => rw [hlk] at h; cases h
                | some aref =>
                  rw [hlk] at h
                  dsimp only at h
                  split at h
                  case isTrue hlen =>
                    cases hmd : dat2Metadata L dat aref with
                    | ok md =>
                      rw [hmd] at h
                      dsimp only at h
                      rw [ih _ _ h k, lookup_cons_isSome]
                      simp only [List.mem_cons, exists_eq_or_imp, hek, Option.some.injEq]
                      constructor
                      · rintro (hes | hkn | hacc2)
                        · exact Or.inl (Or.inr hes)
                        · exact Or.inl (Or.inl hkn.symm)
                        · exact Or.inr hacc2
                      · rintro ((hnk | hes) | hacc2)
                        · exact Or.inr (Or.inl hnk.symm)
                        · exact Or.inl hes
                        · exact Or.inr (Or.inr hacc2)
                    | err => rw [hmd] at h; cases h
                    | panicked => rw [hmd] at h; cases h
                  case isFalse hlen =>
                    rw [ih _ _ h k, lookup_cons_isSome]
                    simp only [List.mem_cons, exists_eq_or_imp, hek, Option.some.injEq]
                    constructor
                    · rintro (hes | hkn | hacc2)
                      · exact Or.inl (Or.inr hes)
                      · exact Or.inl (Or.inl hkn.symm)
                      · exact Or.inr hacc2
                    · rintro ((hnk | hes) | hacc2)
                      · exact Or.inr (Or.inl hnk.symm)
                      · exact Or.inl hes
                      · exact Or.inr (Or.inr hacc2)
      case isFalse hpre =>
        rw [ih _ _ h k]
        have hek : entryKey e = Option.none := by
          simp [entryKey, hext, hpre]
        simp [List.mem_cons, hek]

/-- C9: whenever `Indices::new` succeeds, the resulting map holds the
reference table under key 255, every loaded `idx{N}` index appears under key
`N` with its id field equal to `N`, and the key set is exactly 255 together
with the ids contributed by the directory's `idx{N}` entries — a
characterization independent of directory iteration order. -/
theorem indices_new_layout (L : Libs) (refBytes dat : List Nat)
    (entries : List DirEntry) (m : List (Nat × Index))
    (h : indicesNew L refBytes dat entries = .ok m) :
    (∃ ref, List.lookup 255 m = some ref ∧ ref.id = 255)
    ∧ (∀ k idx, List.lookup k m = some idx → idx.id = k)
    ∧ (∀ k, (List.lookup k m).isSome
        ↔ (k = 255 ∨ ∃ e ∈ entries, entryKey e = some k)) := by
  unfold indicesNew at h
  cases hib : Index.from_buffer 255 refBytes with
  | none => rw [hib] at h; cases h
  | some refIdx =>
    rw [hib] at h
    dsimp only at h
    cases hl : indicesLoop L refIdx dat entries [] with
    | ok acc =>
      rw [hl] at h
      dsimp only at h
      simp only [LoadResult.ok.injEq] at h
      subst h
      have hid255 := Index.from_buffer_id hib
      refine ⟨⟨refIdx, ?_, hid255⟩, ?_, ?_⟩
      · simp [List.lookup]
      · intro k idx hk
        rcases lookup_cons_eq hk with ⟨rfl, rfl⟩ | ⟨hne, hk2⟩
        · exact hid255
        · refine indicesLoop_ids L refIdx dat entries [] acc hl ?_ k idx hk2
          intro k' idx' hk'
          simp [List.lookup] at hk'
      · intro k
        rw [lookup_cons_isSome, indicesLoop_keys L refIdx dat entries [] acc hl k]
        simp [List.lookup]
    | err => rw [hl] at h; cases h
    | panicked => rw [hl] at h; cases h

/-- C9 witness: a directory with one `idx0` file and a reference table whose
archive 0 locator is present but empty. -/
theorem indices_new_layout_witness :
    (∃ ref, List.lookup 255 demoMap = some ref ∧ ref.id = 255)
    ∧ (∀ k idx, List.lookup k demoMap = some idx → idx.id = k)
    ∧ (∀ k, (List.lookup k demoMap).isSome
        ↔ (k = 255 ∨ ∃ e ∈ demoEntries, entryKey e = some k)) :=
  indices_new_layout wLibs [0, 0, 0, 0, 0, 0] [] demoEntries demoMap (by decide)

end RuneFs
